import Mathlib

/-!
# Verification of `yard/data.py`

Shallow embedding of the confusion-matrix core of the `yard` package
(`yard/data.py`): the `BinaryConfusionMatrix` class, the
`BinaryClassifierData` class, its single-threshold lookup
`get_confusion_matrix` and its incremental sweep
`iter_confusion_matrices`, together with theorems settling the claims
about this code.

Modelling conventions:
* scores and raw labels are rationals (`ℚ`); Python floats' rounding is
  irrelevant to the claims, which only involve exact comparisons,
  counts, and division-by-zero structure;
* thresholds that may be `float('inf')` live in `WithTop ℚ`;
* Python `int` counts are `ℤ` (the sweep can drive counts negative);
* exceptions are `Except PyErr`;
* the generator of `iter_confusion_matrices` is embedded as the finite
  list of the pairs it yields.
-/

namespace Yard

/-- A Python exception, restricted to the kinds raised in `yard/data.py`. -/
inductive PyErr where
  | valueError (msg : String)
  | attributeError (name : String)
  | zeroDivisionError
  | indexError
deriving DecidableEq

/-- `BinaryConfusionMatrix`: the four counts stored in `__slots__`
(`tp`, `fp`, `fn`, `tn`), in the order the constructor assigns them. -/
structure BinaryConfusionMatrix where
  tp : ℤ
  fp : ℤ
  fn : ℤ
  tn : ℤ
deriving DecidableEq

/-- Python's `False < True` as a boolean on booleans. -/
def boolLt (a b : Bool) : Bool := !a && b

/-- Python's `False <= True` as a boolean on booleans. -/
def boolLe (a b : Bool) : Bool := !a || b

/-- Python's lexicographic `<=` on the `(score, is_positive)` tuples that
`BinaryClassifierData` stores; this is the order `sorted` uses in
`BinaryClassifierData.__init__`. -/
def pointLe (a b : ℚ × Bool) : Prop :=
  a.1 < b.1 ∨ (a.1 = b.1 ∧ boolLe a.2 b.2 = true)

instance (a b : ℚ × Bool) : Decidable (pointLe a b) := by
  unfold pointLe; exact inferInstance

/-- Python's lexicographic `<` comparing a stored `(score, is_positive)`
tuple against a `(threshold, label)` search key whose threshold may be
`float('inf')`; this is the comparison `bisect_left` performs. -/
def pointLtKey (p : ℚ × Bool) (x : WithTop ℚ × Bool) : Bool :=
  decide ((p.1 : WithTop ℚ) < x.1) ||
    (decide ((p.1 : WithTop ℚ) = x.1) && boolLt p.2 x.2)

/-- `bisect.bisect_left`, fuel-indexed translation of the CPython loop

    while lo < hi:
        mid = (lo+hi)//2
        if a[mid] < x: lo = mid+1
        else: hi = mid
    return lo

The fuel only bounds the iteration count; `bisect_left` supplies enough
fuel (`hi - lo` shrinks at every step). -/
def bisectLeftAux (l : List (ℚ × Bool)) (x : WithTop ℚ × Bool) :
    Nat → Nat → Nat → Nat
  | 0, lo, _ => lo
  | fuel + 1, lo, hi =>
    if lo < hi then
      let mid := (lo + hi) / 2
      if pointLtKey (l.getD mid (0, false)) x then
        bisectLeftAux l x fuel (mid + 1) hi
      else
        bisectLeftAux l x fuel lo mid
    else lo

/-- `bisect_left(a, x)` with `lo = 0`, `hi = len(a)`. -/
def bisect_left (l : List (ℚ × Bool)) (x : WithTop ℚ × Bool) : Nat :=
  bisectLeftAux l x l.length 0 l.length

/-- `BinaryClassifierData`: the sorted, normalized `(score, is_positive)`
pairs stored in `self.data`. -/
structure BinaryClassifierData where
  data : List (ℚ × Bool)
deriving DecidableEq

/-- `BinaryClassifierData._normalize_point`: keep the score, turn the raw
label into `label > 0`. -/
def normalizePoint (p : ℚ × ℚ) : ℚ × Bool :=
  (p.1, decide (0 < p.2))

/-- `BinaryClassifierData.__init__` on a raw list of `(score, label)`
pairs: normalize each point and sort (Python `sorted`, i.e. a stable
sort by the lexicographic tuple order). -/
def mkBinaryClassifierData (raw : List (ℚ × ℚ)) : BinaryClassifierData :=
  ⟨List.insertionSort pointLe (raw.map normalizePoint)⟩

/-- `self.total_positives`: the number of points whose raw label is
positive, which equals the number of `true` labels after normalization. -/
def BinaryClassifierData.total_positives (d : BinaryClassifierData) : ℤ :=
  (d.data.countP (fun p => p.2) : ℤ)

/-- `self.total_negatives = len(self.data) - self.total_positives`. -/
def BinaryClassifierData.total_negatives (d : BinaryClassifierData) : ℤ :=
  (d.data.length : ℤ) - d.total_positives

/-- The loop `for _, is_pos in pts: result[row][is_pos] += 1`: returns the
row as (count of negative labels, count of positive labels). -/
def tallyPair (pts : List (ℚ × Bool)) : ℤ × ℤ :=
  pts.foldl (fun acc p => if p.2 then (acc.1, acc.2 + 1) else (acc.1 + 1, acc.2))
    (0, 0)

/-- `BinaryClassifierData.get_confusion_matrix(threshold)`: binary-search
for the first index whose `(score, label)` is `>= (threshold, False)`,
then tally the shorter half directly and derive the other half from the
stored totals. The final `BinaryConfusionMatrix(data=result)` call routes
the grid `[[tn, fn], [fp, tp]]` through the `data` setter, which assigns
the four counts in exactly this arrangement. -/
def get_confusion_matrix (d : BinaryClassifierData) (threshold : WithTop ℚ) :
    BinaryConfusionMatrix :=
  let idx := bisect_left d.data (threshold, false)
  if idx ≤ d.data.length / 2 then
    let c := tallyPair (d.data.take idx)
    ⟨d.total_positives - c.2, d.total_negatives - c.1, c.2, c.1⟩
  else
    let c := tallyPair (d.data.drop idx)
    ⟨c.2, c.1, d.total_positives - c.2, d.total_negatives - c.1⟩

/-- The `thresholds` argument of `iter_confusion_matrices`: `None`, an
integer, or an explicit collection of thresholds. -/
inductive ThresholdsArg where
  | none
  | int (n : ℤ)
  | coll (l : List ℚ)

/-- The branch of `iter_confusion_matrices` that resolves the `thresholds`
argument into a list of candidate thresholds: `None` uses every score of
the (sorted) stored data; an integer `n` uses `[i/float(n) for i in
xrange(n)]` (empty when `n <= 0`); a collection is used as given. -/
def resolveThresholds (d : BinaryClassifierData) : ThresholdsArg → List ℚ
  | .none => d.data.map Prod.fst
  | .int n => (List.range n.toNat).map (fun i => (i : ℚ) / (n : ℚ))
  | .coll l => l

/-- `sorted(set(thresholds))`: drop duplicates, sort ascending. -/
def dedupSort (l : List ℚ) : List ℚ :=
  List.insertionSort (· ≤ ·) l.dedup

/-- One iteration of the sweep's inner `while` body once a point is known
to lie below the new threshold: a positive point moves from tp to fn, a
negative one from fp to tn. -/
def updateMatrix (m : BinaryConfusionMatrix) (p : ℚ × Bool) :
    BinaryConfusionMatrix :=
  if p.2 then ⟨m.tp - 1, m.fp, m.fn + 1, m.tn⟩
  else ⟨m.tp, m.fp - 1, m.fn, m.tn + 1⟩

/-- The sweep's inner `while` loop: starting from the running matrix and
the not-yet-consumed suffix of the data, consume points while their score
is below the threshold (`if row[0] >= threshold: break`), updating the
running matrix; return the updated matrix and the remaining suffix. -/
def advance (t : WithTop ℚ) :
    BinaryConfusionMatrix → List (ℚ × Bool) →
      BinaryConfusionMatrix × List (ℚ × Bool)
  | m, [] => (m, [])
  | m, p :: rest =>
    if (p.1 : WithTop ℚ) ≥ t then (m, p :: rest)
    else advance t (updateMatrix m p) rest

/-- The sweep's outer `for threshold in thresholds` loop: for each
threshold advance the cursor, then yield the threshold with a copy of the
running matrix (`yield threshold, BinaryConfusionMatrix(result)`). -/
def sweepLoop :
    List (WithTop ℚ) → BinaryConfusionMatrix → List (ℚ × Bool) →
      List (WithTop ℚ × BinaryConfusionMatrix)
  | [], _, _ => []
  | t :: ts, m, rest =>
    let s := advance t m rest
    (t, s.1) :: sweepLoop ts s.1 s.2

/-- `BinaryClassifierData.iter_confusion_matrices(thresholds)` as the list
of pairs the generator yields: return nothing on an empty dataset;
resolve, deduplicate and sort the thresholds; return nothing if none
remain; append `float('inf')`; pop the first (lowest) threshold and
yield it with its `get_confusion_matrix`; then run the incremental loop
over the remaining thresholds with the cursor starting at row 0. -/
def iter_confusion_matrices (d : BinaryClassifierData) (arg : ThresholdsArg) :
    List (WithTop ℚ × BinaryConfusionMatrix) :=
  if d.data.length = 0 then []
  else
    match dedupSort (resolveThresholds d arg) with
    | [] => []
    | t0 :: ts =>
      let m0 := get_confusion_matrix d (t0 : WithTop ℚ)
      ((t0 : WithTop ℚ), m0) ::
        sweepLoop (ts.map (fun t => (t : WithTop ℚ)) ++ [⊤]) m0 d.data

/-! ## Metrics, grid construction and indexed access of the matrix class -/

/-- Python's `a / float(b)`: `ZeroDivisionError` on a zero denominator,
exact division otherwise (float rounding is not at issue in the claims,
which only concern the zero-denominator structure). -/
def pydiv (a b : ℚ) : Except PyErr ℚ :=
  if b = 0 then .error .zeroDivisionError else .ok (a / b)

/-- `BinaryConfusionMatrix.precision`: `tp / float(tp + fp)` inside
`try`, with `ZeroDivisionError` caught and `1.0` returned instead. -/
def precision (m : BinaryConfusionMatrix) : ℚ :=
  match pydiv (m.tp : ℚ) ((m.tp : ℚ) + (m.fp : ℚ)) with
  | .ok v => v
  | .error _ => 1

/-- `BinaryConfusionMatrix.fdr`: `fp / float(fp + tp)`, with any
`ZeroDivisionError` propagating to the caller. -/
def fdr (m : BinaryConfusionMatrix) : Except PyErr ℚ :=
  pydiv (m.fp : ℚ) ((m.fp : ℚ) + (m.tp : ℚ))

/-- The `data` property getter: the grid `[[tn, fn], [fp, tp]]`. -/
def dataGrid (m : BinaryConfusionMatrix) : List (List ℤ) :=
  [[m.tn, m.fn], [m.fp, m.tp]]

/-- The `data` property setter on a raw grid: `ValueError` unless the
grid has exactly 2 rows (checked first) of exactly 2 columns each, then
the destructuring `(tn, fn), (fp, tp) = data` assigns the counts. -/
def setDataGrid : List (List ℤ) → Except PyErr BinaryConfusionMatrix
  | [[tn, fn], [fp, tp]] => .ok ⟨tp, fp, fn, tn⟩
  | grid =>
    if grid.length ≠ 2 then
      .error (.valueError "confusion matrix must have 2 rows")
    else
      .error (.valueError "confusion matrix must have 2 columns")

/-- `BinaryConfusionMatrix.__init__(data=grid)` with the count keyword
arguments left at their defaults: the four counts are first set to 0,
then `if data:` routes the grid through the `data` setter only when the
grid is truthy — an empty list is falsy in Python, so an empty grid is
treated as absent and the all-zero matrix is returned. -/
def initFromGrid (grid : List (List ℤ)) : Except PyErr BinaryConfusionMatrix :=
  if grid.isEmpty then .ok ⟨0, 0, 0, 0⟩ else setDataGrid grid

/-- Attribute lookup on a `BinaryConfusionMatrix` instance, restricted to
grid-valued attributes: the only attribute holding the 2x2 grid is the
`data` property; the `__slots__` names `tp`, `fp`, `fn`, `tn` hold
integers, and no other attribute exists — in particular `_data` is
neither a slot nor a class attribute, so looking it up raises
`AttributeError`. -/
def gridAttributeLookup (m : BinaryConfusionMatrix) (name : String) :
    Except PyErr (List (List ℤ)) :=
  if name = "data" then .ok (dataGrid m)
  else .error (.attributeError name)

/-- Python list indexing `l[i]`: negative indices wrap around once,
out-of-range indices raise `IndexError`. -/
def pyListGet {α : Type} (l : List α) (i : ℤ) : Except PyErr α :=
  let j := if i < 0 then i + l.length else i
  if h : 0 ≤ j ∧ j < (l.length : ℤ) then .ok (l.get ⟨j.toNat, by omega⟩)
  else .error .indexError

/-- Python list item assignment `l[i] = v`, returning the updated list. -/
def pyListSet {α : Type} (l : List α) (i : ℤ) (v : α) : Except PyErr (List α) :=
  let j := if i < 0 then i + l.length else i
  if 0 ≤ j ∧ j < (l.length : ℤ) then .ok (l.set j.toNat v)
  else .error .indexError

/-- `BinaryConfusionMatrix.__getitem__((obs, exp))`:
`return self._data[obs][exp]` — the attribute lookup of `_data` happens
before any indexing. -/
def getitemMatrix (m : BinaryConfusionMatrix) (coords : ℤ × ℤ) :
    Except PyErr ℤ := do
  let d ← gridAttributeLookup m "_data"
  let row ← pyListGet d coords.1
  pyListGet row coords.2

/-- `BinaryConfusionMatrix.__setitem__((obs, exp), value)`:
`self._data[obs][exp] = value` — the attribute lookup of `_data` happens
before any mutation; the would-be updated grid is returned. -/
def setitemMatrix (m : BinaryConfusionMatrix) (coords : ℤ × ℤ) (v : ℤ) :
    Except PyErr (List (List ℤ)) := do
  let d ← gridAttributeLookup m "_data"
  let row ← pyListGet d coords.1
  let row2 ← pyListSet row coords.2 v
  pyListSet d coords.1 row2

/-! ## The sweep at the object level (which object each yield hands out)

Only one `BinaryConfusionMatrix` object is ever mutated by the sweep: the
running matrix `result`. The first yield (`yield threshold, result`,
line 296) hands out that object itself; every yield inside the loop
(`yield threshold, BinaryConfusionMatrix(result)`, line 319) hands out a
fresh copy of its current value, and copies are never mutated
afterwards. The object-level model records, for each yielded pair,
whether the running matrix itself or a copy (with its value at copy
time) was handed out, together with the running matrix's final value. -/

/-- The object a sweep `yield` hands out. -/
inductive YieldObj where
  | running
  | copy (m : BinaryConfusionMatrix)
deriving DecidableEq

/-- The sweep loop at the object level: each in-loop yield is a copy of
the running matrix's current value; also returns the running matrix's
value after the loop finishes. -/
def sweepLoopObj :
    List (WithTop ℚ) → BinaryConfusionMatrix → List (ℚ × Bool) →
      List (WithTop ℚ × YieldObj) × BinaryConfusionMatrix
  | [], m, _ => ([], m)
  | t :: ts, m, rest =>
    let s := advance t m rest
    let out := sweepLoopObj ts s.1 s.2
    ((t, .copy s.1) :: out.1, out.2)

/-- `iter_confusion_matrices` at the object level: the first yield hands
out the running matrix itself (no copy); the second component is the
running matrix's final value once the generator is exhausted (`none`
when nothing is yielded: the running matrix is then never created). -/
def iterObjects (d : BinaryClassifierData) (arg : ThresholdsArg) :
    List (WithTop ℚ × YieldObj) × Option BinaryConfusionMatrix :=
  if d.data.length = 0 then ([], Option.none)
  else
    match dedupSort (resolveThresholds d arg) with
    | [] => ([], Option.none)
    | t0 :: ts =>
      let m0 := get_confusion_matrix d (t0 : WithTop ℚ)
      let out := sweepLoopObj (ts.map (fun t => (t : WithTop ℚ)) ++ [⊤]) m0 d.data
      (((t0 : WithTop ℚ), YieldObj.running) :: out.1, some out.2)

/-- Reading a yielded object's counts after the generator has been
exhausted: the running matrix reads as its final value, a copy reads as
the value it was created with. -/
def observeAfter (final : Option BinaryConfusionMatrix) :
    YieldObj → Option BinaryConfusionMatrix
  | .running => final
  | .copy m => some m

/-! ## Concrete datasets used by the claim theorems -/

/-- The doctest dataset of `get_confusion_matrix`: scores 0.1 .. 0.9 with
labels `[0, 0, 0, 1, 0, 1, 1, 1, 1]`, built through the constructor. -/
def exampleData : BinaryClassifierData :=
  mkBinaryClassifierData
    [(mkRat 1 10, 0), (mkRat 2 10, 0), (mkRat 3 10, 0), (mkRat 4 10, 1),
     (mkRat 5 10, 0), (mkRat 6 10, 1), (mkRat 7 10, 1), (mkRat 8 10, 1),
     (mkRat 9 10, 1)]

/-- The dataset `[(0.1, positive), (0.9, positive)]` (already sorted and
normalized, as its sortedness conjunct below checks). -/
def sweepBugData : BinaryClassifierData :=
  ⟨[(mkRat 1 10, true), (mkRat 9 10, true)]⟩

/-- A dataset with a duplicated score: `[(0.5, −), (0.5, +)]` (sorted:
`False` orders before `True` at equal scores). -/
def dupScoreData : BinaryClassifierData :=
  ⟨[(mkRat 1 2, false), (mkRat 1 2, true)]⟩

/-- The one-point dataset `[(0.5, positive)]` used to exhibit the
aliasing of the sweep's first yield. -/
def aliasData : BinaryClassifierData := ⟨[(mkRat 1 2, true)]⟩

/-- The dataset order is total (used only to certify that the
constructor's sort really sorts). -/
instance : IsTotal (ℚ × Bool) pointLe where
  total a b := by
    rcases lt_trichotomy a.1 b.1 with h | h | h
    · exact Or.inl (Or.inl h)
    · by_cases hb : b.2 = true
      · exact Or.inl (Or.inr ⟨h, by simp [boolLe, hb]⟩)
      · exact Or.inr (Or.inr ⟨h.symm, by simp [boolLe, hb]⟩)
    · exact Or.inr (Or.inl h)

/-- The dataset order is transitive. -/
instance : IsTrans (ℚ × Bool) pointLe where
  trans a b c hab hbc := by
    have hbool : ∀ x y z : Bool, boolLe x y = true → boolLe y z = true →
        boolLe x z = true := by decide
    rcases hab with h1 | ⟨h1, hb1⟩
    · rcases hbc with h2 | ⟨h2, -⟩
      · exact Or.inl (lt_trans h1 h2)
      · exact Or.inl (lt_of_lt_of_le h1 (le_of_eq h2))
    · rcases hbc with h2 | ⟨h2, hb2⟩
      · exact Or.inl (lt_of_le_of_lt (le_of_eq h1) h2)
      · exact Or.inr ⟨h1.trans h2, hbool _ _ _ hb1 hb2⟩

/-! ## Correctness of the `bisect_left` call on sorted data -/

/-- Every dataset built by the constructor is sorted by the dataset
order: the sortedness hypotheses of the theorems below hold for every
constructed `BinaryClassifierData`. -/
theorem mkBinaryClassifierData_sorted (raw : List (ℚ × ℚ)) :
    (mkBinaryClassifierData raw).data.Sorted pointLe :=
  List.sorted_insertionSort pointLe (raw.map normalizePoint)



/-- Against a `(threshold, False)` search key, the lexicographic
comparison degenerates to comparing scores: no boolean is below
`False`. -/
theorem pointLtKey_false (p : ℚ × Bool) (t : WithTop ℚ) :
    pointLtKey p (t, false) = decide ((p.1 : WithTop ℚ) < t) := by
  simp [pointLtKey, boolLt]

/-- "score below `t`" is downward closed along the dataset order. -/
theorem scoreLt_of_pointLe {a b : ℚ × Bool} {t : WithTop ℚ}
    (hab : pointLe a b) (hb : (b.1 : WithTop ℚ) < t) :
    (a.1 : WithTop ℚ) < t := by
  rcases hab with h | ⟨h, -⟩
  · exact lt_trans (by exact_mod_cast h) hb
  · rw [h] at *; exact hb

/-- On a sorted dataset, the positions whose score is below `t` are
exactly the first `countP (score < t)` ones. -/
theorem sorted_count_lt {t : WithTop ℚ} :
    ∀ {l : List (ℚ × Bool)}, l.Sorted pointLe →
      ∀ i (h : i < l.length),
        (((l[i].1 : ℚ) : WithTop ℚ) < t ↔
          i < l.countP (fun p => decide ((p.1 : WithTop ℚ) < t))) := by
  intro l
  induction l with
  | nil => intro _ i h; simp at h
  | cons x xs ih =>
    intro hs i h
    rw [List.sorted_cons] at hs
    by_cases hx : ((x.1 : ℚ) : WithTop ℚ) < t
    · rw [List.countP_cons_of_pos _ _ (by simpa using hx)]
      match i with
      | 0 => simpa using hx
      | i + 1 =>
        have h' : i < xs.length := by simpa using h
        simpa using ih hs.2 i h'
    · have hzero : xs.countP (fun p => decide ((p.1 : WithTop ℚ) < t)) = 0 := by
        rw [List.countP_eq_zero]
        intro p hp
        simp only [decide_eq_true_eq]
        exact fun hlt => hx (scoreLt_of_pointLe (hs.1 p hp) hlt)
      rw [List.countP_cons_of_neg _ _ (by simpa using hx)]
      rw [hzero]
      match i with
      | 0 => simpa using hx
      | i + 1 =>
        have h' : i < xs.length := by simpa using h
        have := (ih hs.2 i h').not.mpr (by omega)
        simpa using this

/-- The binary-search loop returns the boundary index `B` whenever the
comparison predicate holds strictly before `B` and fails from `B` on,
given enough fuel. -/
theorem bisectLeftAux_eq_of_boundary (l : List (ℚ × Bool)) (x : WithTop ℚ × Bool)
    (B : Nat)
    (hlt : ∀ i (h : i < l.length), i < B → pointLtKey l[i] x = true)
    (hge : ∀ i (h : i < l.length), B ≤ i → pointLtKey l[i] x = false) :
    ∀ fuel lo hi, hi - lo ≤ fuel → lo ≤ B → B ≤ hi → hi ≤ l.length →
      bisectLeftAux l x fuel lo hi = B := by
  intro fuel
  induction fuel with
  | zero =>
    intro lo hi hfuel hlo hhi _
    simp only [bisectLeftAux]
    omega
  | succ fuel ih =>
    intro lo hi hfuel hlo hhi hlen
    by_cases hlh : lo < hi
    · have hmid1 : lo ≤ (lo + hi) / 2 := by omega
      have hmid2 : (lo + hi) / 2 < hi := by omega
      have hmidlen : (lo + hi) / 2 < l.length := by omega
      have hgetD : l.getD ((lo + hi) / 2) (0, false) = l[(lo + hi) / 2] := by
        simp [List.getD_eq_getElem?_getD, List.getElem?_eq_getElem hmidlen]
      simp only [bisectLeftAux, if_pos hlh, hgetD]
      by_cases hcmp : pointLtKey l[(lo + hi) / 2] x = true
      · rw [if_pos hcmp]
        have hmidB : (lo + hi) / 2 < B := by
          by_contra hc
          have := hge ((lo + hi) / 2) hmidlen (by omega)
          rw [this] at hcmp
          exact absurd hcmp (by simp)
        exact ih ((lo + hi) / 2 + 1) hi (by omega) (by omega) hhi hlen
      · rw [if_neg hcmp]
        have hmidB : B ≤ (lo + hi) / 2 := by
          by_contra hc
          exact hcmp (hlt ((lo + hi) / 2) hmidlen (by omega))
        exact ih lo ((lo + hi) / 2) (by omega) hlo hmidB (by omega)
    · simp only [bisectLeftAux, if_neg hlh]
      omega

/-- On a sorted dataset, `bisect_left(data, (t, False))` is the number of
points whose score is strictly below `t`. -/
theorem bisect_left_sorted {l : List (ℚ × Bool)} (hl : l.Sorted pointLe)
    (t : WithTop ℚ) :
    bisect_left l (t, false) =
      l.countP (fun p => decide ((p.1 : WithTop ℚ) < t)) := by
  have hB := List.countP_le_length
    (p := fun p : ℚ × Bool => decide ((p.1 : WithTop ℚ) < t)) (l := l)
  refine bisectLeftAux_eq_of_boundary l (t, false) _ ?_ ?_ l.length 0 l.length
    (by omega) (by omega) hB le_rfl
  · intro i h hi
    rw [pointLtKey_false]
    exact decide_eq_true ((sorted_count_lt hl i h).mpr hi)
  · intro i h hi
    rw [pointLtKey_false]
    simpa using (sorted_count_lt hl i h).not.mpr (by omega)

/-! ## The prefix/suffix split at the bisection point -/

/-- On a sorted dataset the prefix of length `countP q` is exactly the
points satisfying `q`, for any downward-closed `q`. -/
theorem sorted_take_countP {q : ℚ × Bool → Bool}
    (hdc : ∀ a b, pointLe a b → q b = true → q a = true) :
    ∀ {l : List (ℚ × Bool)}, l.Sorted pointLe →
      l.take (l.countP q) = l.filter q := by
  intro l
  induction l with
  | nil => intro _; simp
  | cons x xs ih =>
    intro hs
    rw [List.sorted_cons] at hs
    by_cases hx : q x = true
    · rw [List.countP_cons_of_pos _ _ hx, List.filter_cons_of_pos hx, List.take_succ_cons,
        ih hs.2]
    · have hzero : xs.countP q = 0 := by
        rw [List.countP_eq_zero]
        exact fun p hp hq => hx (hdc x p (hs.1 p hp) hq)
      rw [List.countP_cons_of_neg _ _ hx, hzero, List.take_zero,
        List.filter_cons_of_neg hx, eq_comm, List.filter_eq_nil_iff]
      intro p hp hq
      exact hx (hdc x p (hs.1 p hp) hq)

/-- On a sorted dataset the suffix from position `countP q` is exactly
the points failing `q`, for any downward-closed `q`. -/
theorem sorted_drop_countP {q : ℚ × Bool → Bool}
    (hdc : ∀ a b, pointLe a b → q b = true → q a = true) :
    ∀ {l : List (ℚ × Bool)}, l.Sorted pointLe →
      l.drop (l.countP q) = l.filter (fun p => !q p) := by
  intro l
  induction l with
  | nil => intro _; simp
  | cons x xs ih =>
    intro hs
    rw [List.sorted_cons] at hs
    by_cases hx : q x = true
    · rw [List.countP_cons_of_pos _ _ hx, List.drop_succ_cons,
        List.filter_cons_of_neg (by simp [hx]), ih hs.2]
    · have hzero : xs.countP q = 0 := by
        rw [List.countP_eq_zero]
        exact fun p hp hq => hx (hdc x p (hs.1 p hp) hq)
      rw [List.countP_cons_of_neg _ _ hx, hzero, List.drop_zero,
        List.filter_cons_of_pos (by simp [hx]), eq_comm, List.cons_inj_right,
        List.filter_eq_self]
      intro p hp
      have := (List.countP_eq_zero.mp hzero) p hp
      simpa using this

/-! ## The tally loop -/

/-- The row-tally fold counts negative and positive labels. -/
theorem tallyPair_foldl (pts : List (ℚ × Bool)) :
    ∀ acc : ℤ × ℤ,
      pts.foldl (fun acc p => if p.2 then (acc.1, acc.2 + 1) else (acc.1 + 1, acc.2)) acc =
        (acc.1 + (pts.countP (fun p => !p.2) : ℤ),
         acc.2 + (pts.countP (fun p => p.2) : ℤ)) := by
  induction pts with
  | nil => intro acc; simp
  | cons p rest ih =>
    intro acc
    by_cases hp : p.2 = true
    · rw [List.foldl_cons, if_pos hp, ih]
      simp [List.countP_cons, hp, Prod.ext_iff]
      all_goals omega
    · rw [List.foldl_cons, if_neg hp, ih]
      simp [List.countP_cons, hp, Prod.ext_iff]
      all_goals omega

/-- `tallyPair` counts negative and positive labels. -/
theorem tallyPair_eq (pts : List (ℚ × Bool)) :
    tallyPair pts =
      ((pts.countP (fun p => !p.2) : ℤ), (pts.countP (fun p => p.2) : ℤ)) := by
  have := tallyPair_foldl pts (0, 0)
  simpa [tallyPair] using this

/-- Splitting a count along a second predicate. -/
theorem countP_split {α : Type} (l : List α) (p q : α → Bool) :
    l.countP p = l.countP (fun a => p a && q a) + l.countP (fun a => p a && !q a) := by
  induction l with
  | nil => simp
  | cons x xs ih =>
    by_cases hp : p x = true <;> by_cases hq : q x = true <;>
      simp [List.countP_cons, hp, hq, ih] <;> omega

/-- Negative and positive label counts add up to the length. -/
theorem countP_not_add (l : List (ℚ × Bool)) :
    l.countP (fun p => !p.2) + l.countP (fun p => p.2) = l.length := by
  induction l with
  | nil => simp
  | cons x xs ih =>
    by_cases hx : x.2 = true <;> simp [List.countP_cons, hx] <;> omega

/-! ## Characterization of `get_confusion_matrix` on sorted data -/

/-- Boolean form of `¬(x < t) ↔ t ≤ x`. -/
theorem not_lt_decide_eq (xv t : WithTop ℚ) :
    (!decide (xv < t)) = decide (t ≤ xv) := by
  rw [← decide_not]
  exact decide_eq_decide.mpr not_lt

/-- On a sorted dataset, `get_confusion_matrix` returns exactly the
claimed four counts: `tp`/`fp` count positive/negative points with score
`≥ t`, `fn`/`tn` count positive/negative points with score `< t` (both
branches of the shorter-half optimization agree with this). -/
theorem get_confusion_matrix_sorted (d : BinaryClassifierData)
    (hd : d.data.Sorted pointLe) (t : WithTop ℚ) :
    get_confusion_matrix d t =
      ⟨(d.data.countP (fun p => decide (t ≤ (p.1 : WithTop ℚ)) && p.2) : ℤ),
       (d.data.countP (fun p => decide (t ≤ (p.1 : WithTop ℚ)) && !p.2) : ℤ),
       (d.data.countP (fun p => decide ((p.1 : WithTop ℚ) < t) && p.2) : ℤ),
       (d.data.countP (fun p => decide ((p.1 : WithTop ℚ) < t) && !p.2) : ℤ)⟩ := by
  have hdc : ∀ a b : ℚ × Bool, pointLe a b →
      decide ((b.1 : WithTop ℚ) < t) = true → decide ((a.1 : WithTop ℚ) < t) = true := by
    intro a b hab hb
    exact decide_eq_true (scoreLt_of_pointLe hab (of_decide_eq_true hb))
  have htake := sorted_take_countP hdc hd
  have hdrop := sorted_drop_countP hdc hd
  have hpos := countP_split d.data (fun p => p.2)
    (fun p => decide ((p.1 : WithTop ℚ) < t))
  have hneg := countP_split d.data (fun p => !p.2)
    (fun p => decide ((p.1 : WithTop ℚ) < t))
  have e1 : d.data.countP (fun a => a.2 && decide ((a.1 : WithTop ℚ) < t)) =
      d.data.countP (fun p => decide ((p.1 : WithTop ℚ) < t) && p.2) := by
    apply List.countP_congr
    intro p _
    rw [Bool.and_comm]
  have e2 : d.data.countP (fun a => !a.2 && decide ((a.1 : WithTop ℚ) < t)) =
      d.data.countP (fun p => decide ((p.1 : WithTop ℚ) < t) && !p.2) := by
    apply List.countP_congr
    intro p _
    rw [Bool.and_comm]
  have e3 : d.data.countP (fun a => a.2 && !decide ((a.1 : WithTop ℚ) < t)) =
      d.data.countP (fun p => decide (t ≤ (p.1 : WithTop ℚ)) && p.2) := by
    apply List.countP_congr
    intro p _
    rw [not_lt_decide_eq, Bool.and_comm]
  have e4 : d.data.countP (fun a => !a.2 && !decide ((a.1 : WithTop ℚ) < t)) =
      d.data.countP (fun p => decide (t ≤ (p.1 : WithTop ℚ)) && !p.2) := by
    apply List.countP_congr
    intro p _
    rw [not_lt_decide_eq, Bool.and_comm]
  have hnotadd := countP_not_add d.data
  rw [e1, e3] at hpos
  rw [e2, e4] at hneg
  simp only [get_confusion_matrix]
  rw [bisect_left_sorted hd t]
  split
  · rw [htake, tallyPair_eq]
    have hf1 : (List.filter (fun b => decide ((b.1 : WithTop ℚ) < t)) d.data).countP
        (fun p => !p.2) =
        d.data.countP (fun a => !a.2 && decide ((a.1 : WithTop ℚ) < t)) :=
      List.countP_filter _ _ d.data
    have hf2 : (List.filter (fun b => decide ((b.1 : WithTop ℚ) < t)) d.data).countP
        (fun p => p.2) =
        d.data.countP (fun a => a.2 && decide ((a.1 : WithTop ℚ) < t)) :=
      List.countP_filter _ _ d.data
    rw [hf1, hf2, e1, e2]
    simp only [BinaryConfusionMatrix.mk.injEq, BinaryClassifierData.total_positives,
      BinaryClassifierData.total_negatives]
    refine ⟨by omega, by omega, trivial, trivial⟩
  · rw [hdrop, tallyPair_eq]
    have hf3 : (List.filter (fun p => !decide ((p.1 : WithTop ℚ) < t)) d.data).countP
        (fun p => !p.2) =
        d.data.countP (fun a => !a.2 && !decide ((a.1 : WithTop ℚ) < t)) :=
      List.countP_filter _ _ d.data
    have hf4 : (List.filter (fun p => !decide ((p.1 : WithTop ℚ) < t)) d.data).countP
        (fun p => p.2) =
        d.data.countP (fun a => a.2 && !decide ((a.1 : WithTop ℚ) < t)) :=
      List.countP_filter _ _ d.data
    rw [hf3, hf4, e3, e4]
    simp only [BinaryConfusionMatrix.mk.injEq, BinaryClassifierData.total_positives,
      BinaryClassifierData.total_negatives]
    refine ⟨trivial, trivial, by omega, by omega⟩

/-! ## The incremental sweep loop -/

/-- `advance` folds the per-point update over the prefix of points whose
score is below the threshold and keeps the remaining suffix. -/
theorem advance_eq (t : WithTop ℚ) (m : BinaryConfusionMatrix)
    (rest : List (ℚ × Bool)) :
    advance t m rest =
      (List.foldl updateMatrix m
        (rest.takeWhile (fun p => !decide ((p.1 : WithTop ℚ) ≥ t))),
       rest.dropWhile (fun p => !decide ((p.1 : WithTop ℚ) ≥ t))) := by
  induction rest generalizing m with
  | nil => simp [advance]
  | cons p rest ih =>
    by_cases hp : (p.1 : WithTop ℚ) ≥ t
    · simp [advance, hp, List.takeWhile_cons, List.dropWhile_cons]
    · simp [advance, hp, List.takeWhile_cons, List.dropWhile_cons, ih]

/-- Folding the update moves the consumed positives from `tp` to `fn` and
the consumed negatives from `fp` to `tn`. -/
theorem foldl_updateMatrix (pts : List (ℚ × Bool)) :
    ∀ m : BinaryConfusionMatrix,
      List.foldl updateMatrix m pts =
        ⟨m.tp - (pts.countP (fun p => p.2) : ℤ),
         m.fp - (pts.countP (fun p => !p.2) : ℤ),
         m.fn + (pts.countP (fun p => p.2) : ℤ),
         m.tn + (pts.countP (fun p => !p.2) : ℤ)⟩ := by
  induction pts with
  | nil => intro m; simp
  | cons p rest ih =>
    intro m
    rw [List.foldl_cons, ih]
    by_cases hp : p.2 = true
    · simp [updateMatrix, hp, List.countP_cons, BinaryConfusionMatrix.mk.injEq]
      all_goals omega
    · simp [updateMatrix, hp, List.countP_cons, BinaryConfusionMatrix.mk.injEq]
      all_goals omega

/-- The matrix produced by `advance` subtracts some naturals from
`tp`/`fp` and adds the same to `fn`/`tn`. -/
theorem advance_fst_spec (t : WithTop ℚ) (m : BinaryConfusionMatrix)
    (rest : List (ℚ × Bool)) :
    ∃ a b : ℕ, (advance t m rest).1 =
      ⟨m.tp - (a : ℤ), m.fp - (b : ℤ), m.fn + (a : ℤ), m.tn + (b : ℤ)⟩ := by
  refine ⟨(rest.takeWhile (fun p => !decide ((p.1 : WithTop ℚ) ≥ t))).countP
      (fun p => p.2),
    (rest.takeWhile (fun p => !decide ((p.1 : WithTop ℚ) ≥ t))).countP
      (fun p => !p.2), ?_⟩
  rw [advance_eq, foldl_updateMatrix]

/-- The thresholds yielded by the sweep loop are exactly the thresholds
fed to it. -/
theorem sweepLoop_map_fst (ths : List (WithTop ℚ)) :
    ∀ (m : BinaryConfusionMatrix) (rest : List (ℚ × Bool)),
      (sweepLoop ths m rest).map Prod.fst = ths := by
  induction ths with
  | nil => intro m rest; simp [sweepLoop]
  | cons t ts ih => intro m rest; simp [sweepLoop, ih]

/-- Every matrix yielded by the sweep loop keeps the sum of the four
counts of the incoming running matrix, has `tp` at most the incoming `tp`
and `tn` at least the incoming `tn`. -/
theorem sweepLoop_mem (ths : List (WithTop ℚ)) :
    ∀ (m : BinaryConfusionMatrix) (rest : List (ℚ × Bool))
      (pr : WithTop ℚ × BinaryConfusionMatrix), pr ∈ sweepLoop ths m rest →
      (pr.2.tp + pr.2.fp + pr.2.fn + pr.2.tn = m.tp + m.fp + m.fn + m.tn) ∧
        pr.2.tp ≤ m.tp ∧ m.tn ≤ pr.2.tn := by
  induction ths with
  | nil => intro m rest pr h; simp [sweepLoop] at h
  | cons t ts ih =>
    intro m rest pr h
    obtain ⟨a, b, hab⟩ := advance_fst_spec t m rest
    simp only [sweepLoop, List.mem_cons] at h
    rcases h with rfl | h
    · rw [hab]
      dsimp only
      refine ⟨by omega, by omega, by omega⟩
    · obtain ⟨hsum, htp, htn⟩ := ih _ _ _ h
      rw [hab] at hsum htp htn
      dsimp only at hsum htp htn
      exact ⟨by omega, by omega, by omega⟩

/-- Along the sweep loop's output, `tp` never increases and `tn` never
decreases. -/
theorem sweepLoop_pairwise (ths : List (WithTop ℚ)) :
    ∀ (m : BinaryConfusionMatrix) (rest : List (ℚ × Bool)),
      (sweepLoop ths m rest).Pairwise
        (fun a b => b.2.tp ≤ a.2.tp ∧ a.2.tn ≤ b.2.tn) := by
  induction ths with
  | nil => intro m rest; simp [sweepLoop]
  | cons t ts ih =>
    intro m rest
    simp only [sweepLoop]
    refine List.Pairwise.cons ?_ (ih _ _)
    intro pr hpr
    obtain ⟨-, htp, htn⟩ := sweepLoop_mem ts _ _ pr hpr
    exact ⟨htp, htn⟩

/-- At threshold `+inf` the inner loop consumes every remaining point. -/
theorem advance_top (m : BinaryConfusionMatrix) (rest : List (ℚ × Bool)) :
    advance ⊤ m rest = (List.foldl updateMatrix m rest, []) := by
  induction rest generalizing m with
  | nil => simp [advance]
  | cons p rest ih =>
    have hp : ¬ ((p.1 : WithTop ℚ) ≥ ⊤) := by
      simp [top_le_iff]
    simp [advance, hp, ih]

/-- A sweep loop over a nonempty threshold list yields something. -/
theorem sweepLoop_ne_nil (t : WithTop ℚ) (ts : List (WithTop ℚ))
    (m : BinaryConfusionMatrix) (rest : List (ℚ × Bool)) :
    sweepLoop (t :: ts) m rest ≠ [] := by
  simp [sweepLoop]

/-- `getLast?` skips a head when the tail is nonempty. -/
theorem getLast?_cons_of_ne_nil {α : Type} (a : α) {l : List α} (h : l ≠ []) :
    (a :: l).getLast? = l.getLast? := by
  cases l with
  | nil => exact absurd rfl h
  | cons b l => simp [List.getLast?_cons_cons]

/-- A sweep loop whose threshold list ends with `+inf` ends by yielding
`+inf` together with the running matrix updated by every remaining
point. -/
theorem sweepLoop_getLast (ths : List (WithTop ℚ)) :
    ∀ (m : BinaryConfusionMatrix) (rest : List (ℚ × Bool)),
      (sweepLoop (ths ++ [⊤]) m rest).getLast? =
        some (⊤, List.foldl updateMatrix m rest) := by
  induction ths with
  | nil =>
    intro m rest
    simp [sweepLoop, advance_top]
  | cons t ts ih =>
    intro m rest
    rw [List.cons_append]
    simp only [sweepLoop]
    obtain ⟨c, cs, hcs⟩ : ∃ c cs, ts ++ [⊤] = c :: cs := by
      cases ts with
      | nil => exact ⟨⊤, [], rfl⟩
      | cons u us => exact ⟨u, us ++ [⊤], List.cons_append u us [⊤]⟩
    rw [getLast?_cons_of_ne_nil _ (by rw [hcs]; exact sweepLoop_ne_nil c cs _ _), ih]
    have hsplit := List.takeWhile_append_dropWhile
      (p := fun p : ℚ × Bool => !decide ((p.1 : WithTop ℚ) ≥ t)) (l := rest)
    rw [advance_eq]
    rw [← List.foldl_append, hsplit]

/-! ## Structure of `iter_confusion_matrices` -/

/-- `sorted(set(l))` is empty exactly when `l` is. -/
theorem dedupSort_eq_nil_iff (l : List ℚ) : dedupSort l = [] ↔ l = [] := by
  unfold dedupSort
  constructor
  · intro h
    have hlen := List.length_insertionSort (r := (· ≤ ·)) l.dedup
    rw [h] at hlen
    exact (List.dedup_eq_nil l).mp (List.length_eq_zero.mp hlen.symm)
  · intro h
    subst h
    rfl

/-- When the dataset is nonempty and the resolved thresholds survive
deduplication, the sweep yields the matrix at the lowest threshold and
then runs the incremental loop over the remaining thresholds plus the
synthetic `+inf`, with the cursor starting at row 0. -/
theorem iter_eq_cons (d : BinaryClassifierData) (arg : ThresholdsArg)
    (t0 : ℚ) (ts : List ℚ) (hres : dedupSort (resolveThresholds d arg) = t0 :: ts)
    (hne : d.data ≠ []) :
    iter_confusion_matrices d arg =
      ((t0 : WithTop ℚ), get_confusion_matrix d (t0 : WithTop ℚ)) ::
        sweepLoop (ts.map (fun t => (t : WithTop ℚ)) ++ [⊤])
          (get_confusion_matrix d (t0 : WithTop ℚ)) d.data := by
  unfold iter_confusion_matrices
  rw [if_neg (by simpa using hne), hres]

/-- When the dataset is empty, or no thresholds survive resolution and
deduplication, the sweep yields nothing. -/
theorem iter_eq_nil (d : BinaryClassifierData) (arg : ThresholdsArg)
    (h : d.data = [] ∨ dedupSort (resolveThresholds d arg) = []) :
    iter_confusion_matrices d arg = [] := by
  unfold iter_confusion_matrices
  rcases h with h | h
  · rw [if_pos (by simpa using h)]
  · by_cases hd : d.data.length = 0
    · rw [if_pos hd]
    · rw [if_neg hd, h]

/-- The sum of the four counts of any `get_confusion_matrix` result is
the dataset size (no sortedness needed: both branches derive the missing
half from the stored totals). -/
theorem get_confusion_matrix_sum (d : BinaryClassifierData) (t : WithTop ℚ) :
    (get_confusion_matrix d t).tp + (get_confusion_matrix d t).fp +
      (get_confusion_matrix d t).fn + (get_confusion_matrix d t).tn =
      (d.data.length : ℤ) := by
  simp only [get_confusion_matrix, BinaryClassifierData.total_positives,
    BinaryClassifierData.total_negatives]
  split <;> dsimp only <;> omega

/-- Any pair in the yielded sweep has counts summing to the dataset
size. -/
theorem iter_mem_sum (d : BinaryClassifierData) (arg : ThresholdsArg)
    (pr : WithTop ℚ × BinaryConfusionMatrix)
    (hpr : pr ∈ iter_confusion_matrices d arg) :
    pr.2.tp + pr.2.fp + pr.2.fn + pr.2.tn = (d.data.length : ℤ) := by
  by_cases hne : d.data = []
  · rw [iter_eq_nil d arg (Or.inl hne)] at hpr
    simp at hpr
  · rcases hres : dedupSort (resolveThresholds d arg) with _ | ⟨t0, ts⟩
    · rw [iter_eq_nil d arg (Or.inr hres)] at hpr
      simp at hpr
    · rw [iter_eq_cons d arg t0 ts hres hne] at hpr
      have hsum := get_confusion_matrix_sum d (t0 : WithTop ℚ)
      rcases List.mem_cons.mp hpr with rfl | hpr
      · exact hsum
      · have := (sweepLoop_mem _ _ _ _ hpr).1
        omega

/-- Along the yielded sweep, `tp` never increases and `tn` never
decreases. -/
theorem iter_pairwise (d : BinaryClassifierData) (arg : ThresholdsArg) :
    (iter_confusion_matrices d arg).Pairwise
      (fun a b => b.2.tp ≤ a.2.tp ∧ a.2.tn ≤ b.2.tn) := by
  by_cases hne : d.data = []
  · rw [iter_eq_nil d arg (Or.inl hne)]
    exact List.Pairwise.nil
  · rcases hres : dedupSort (resolveThresholds d arg) with _ | ⟨t0, ts⟩
    · rw [iter_eq_nil d arg (Or.inr hres)]
      exact List.Pairwise.nil
    · rw [iter_eq_cons d arg t0 ts hres hne]
      refine List.Pairwise.cons ?_ (sweepLoop_pairwise _ _ _)
      intro pr hpr
      exact (sweepLoop_mem _ _ _ _ hpr).2

/-- At a threshold at most every score of a sorted dataset, the matrix
classifies everything positive: `tp`/`fp` are the stored totals, `fn`
and `tn` are zero. -/
theorem gcm_at_min (d : BinaryClassifierData) (hd : d.data.Sorted pointLe)
    (t0 : ℚ) (hmin : ∀ p ∈ d.data, t0 ≤ p.1) :
    get_confusion_matrix d (t0 : WithTop ℚ) =
      ⟨d.total_positives, d.total_negatives, 0, 0⟩ := by
  rw [get_confusion_matrix_sorted d hd]
  have h1 : d.data.countP
      (fun p => decide (((t0 : ℚ) : WithTop ℚ) ≤ (p.1 : WithTop ℚ)) && p.2) =
      d.data.countP (fun p => p.2) := by
    apply List.countP_congr
    intro p hp
    have : ((t0 : ℚ) : WithTop ℚ) ≤ (p.1 : WithTop ℚ) :=
      WithTop.coe_le_coe.mpr (hmin p hp)
    simp [this]
  have h2 : d.data.countP
      (fun p => decide (((t0 : ℚ) : WithTop ℚ) ≤ (p.1 : WithTop ℚ)) && !p.2) =
      d.data.countP (fun p => !p.2) := by
    apply List.countP_congr
    intro p hp
    have : ((t0 : ℚ) : WithTop ℚ) ≤ (p.1 : WithTop ℚ) :=
      WithTop.coe_le_coe.mpr (hmin p hp)
    simp [this]
  have h3 : d.data.countP
      (fun p => decide ((p.1 : WithTop ℚ) < ((t0 : ℚ) : WithTop ℚ)) && p.2) = 0 := by
    rw [List.countP_eq_zero]
    intro p hp
    have : ¬ ((p.1 : WithTop ℚ) < ((t0 : ℚ) : WithTop ℚ)) :=
      not_lt.mpr (WithTop.coe_le_coe.mpr (hmin p hp))
    simp [this]
  have h4 : d.data.countP
      (fun p => decide ((p.1 : WithTop ℚ) < ((t0 : ℚ) : WithTop ℚ)) && !p.2) = 0 := by
    rw [List.countP_eq_zero]
    intro p hp
    have : ¬ ((p.1 : WithTop ℚ) < ((t0 : ℚ) : WithTop ℚ)) :=
      not_lt.mpr (WithTop.coe_le_coe.mpr (hmin p hp))
    simp [this]
  rw [h1, h2, h3, h4]
  have hnotadd := countP_not_add d.data
  simp only [BinaryConfusionMatrix.mk.injEq, BinaryClassifierData.total_positives,
    BinaryClassifierData.total_negatives]
  refine ⟨trivial, by omega, by omega, by omega⟩

/-- The thresholds of the yielded pairs are the deduplicated, sorted
resolved thresholds followed by `+inf` (nonempty case). -/
theorem iter_map_fst (d : BinaryClassifierData) (arg : ThresholdsArg)
    (t0 : ℚ) (ts : List ℚ) (hres : dedupSort (resolveThresholds d arg) = t0 :: ts)
    (hne : d.data ≠ []) :
    (iter_confusion_matrices d arg).map Prod.fst =
      (dedupSort (resolveThresholds d arg)).map (fun t => (t : WithTop ℚ)) ++ [⊤] := by
  rw [iter_eq_cons d arg t0 ts hres hne, hres]
  simp [sweepLoop_map_fst]

/-- For a nonempty dataset, the sweep ends by yielding `+inf` together
with the matrix at the lowest threshold updated by every data point. -/
theorem iter_getLast (d : BinaryClassifierData) (arg : ThresholdsArg)
    (t0 : ℚ) (ts : List ℚ) (hres : dedupSort (resolveThresholds d arg) = t0 :: ts)
    (hne : d.data ≠ []) :
    (iter_confusion_matrices d arg).getLast? =
      some (⊤, List.foldl updateMatrix (get_confusion_matrix d (t0 : WithTop ℚ))
        d.data) := by
  rw [iter_eq_cons d arg t0 ts hres hne]
  obtain ⟨c, cs, hcs⟩ : ∃ c cs,
      ts.map (fun t => (t : WithTop ℚ)) ++ [⊤] = c :: cs := by
    cases ts with
    | nil => exact ⟨⊤, [], rfl⟩
    | cons u us =>
      exact ⟨(u : WithTop ℚ), us.map (fun t => (t : WithTop ℚ)) ++ [⊤], by simp⟩
  rw [getLast?_cons_of_ne_nil _ (by rw [hcs]; exact sweepLoop_ne_nil c cs _ _)]
  exact sweepLoop_getLast _ _ _

/-! ## Claim theorems -/

/-- C1: for every dataset (a sorted, normalized point list) and every
real threshold `t`, `get_confusion_matrix(t)` returns `tp` = number of
positive-labeled points with score `≥ t`, `fp` = negatives with score
`≥ t`, `fn` = positives with score `< t`, `tn` = negatives with score
`< t` (ties at score `= t` classified positive); in particular on the
doctest dataset, threshold 0.2 gives tp=5, fp=3, fn=0, tn=1 and
threshold 0.75 gives tp=2, fp=0, fn=3, tn=4. -/
theorem claim_C1 :
    (∀ d : BinaryClassifierData, d.data.Sorted pointLe → ∀ t : ℚ,
      get_confusion_matrix d (t : WithTop ℚ) =
        ⟨(d.data.countP (fun p => decide (t ≤ p.1) && p.2) : ℤ),
         (d.data.countP (fun p => decide (t ≤ p.1) && !p.2) : ℤ),
         (d.data.countP (fun p => decide (p.1 < t) && p.2) : ℤ),
         (d.data.countP (fun p => decide (p.1 < t) && !p.2) : ℤ)⟩) ∧
    get_confusion_matrix exampleData ((mkRat 2 10 : ℚ) : WithTop ℚ) =
      ⟨5, 3, 0, 1⟩ ∧
    get_confusion_matrix exampleData ((mkRat 3 4 : ℚ) : WithTop ℚ) =
      ⟨2, 0, 3, 4⟩ := by
  refine ⟨?_, by decide, by decide⟩
  intro d hd t
  rw [get_confusion_matrix_sorted d hd ((t : ℚ) : WithTop ℚ)]
  have e1 : ∀ p : ℚ × Bool,
      decide (((t : ℚ) : WithTop ℚ) ≤ (p.1 : WithTop ℚ)) = decide (t ≤ p.1) :=
    fun p => decide_eq_decide.mpr WithTop.coe_le_coe
  have e2 : ∀ p : ℚ × Bool,
      decide ((p.1 : WithTop ℚ) < ((t : ℚ) : WithTop ℚ)) = decide (p.1 < t) :=
    fun p => decide_eq_decide.mpr WithTop.coe_lt_coe
  simp only [e1, e2]

/-- Witness for C1: the general part applied to the doctest dataset at
threshold 0.5, sortedness discharged by evaluation. -/
theorem claim_C1_witness :
    exampleData.data.Sorted pointLe ∧
    get_confusion_matrix exampleData ((mkRat 1 2 : ℚ) : WithTop ℚ) =
      ⟨(exampleData.data.countP (fun p => decide (mkRat 1 2 ≤ p.1) && p.2) : ℤ),
       (exampleData.data.countP (fun p => decide (mkRat 1 2 ≤ p.1) && !p.2) : ℤ),
       (exampleData.data.countP (fun p => decide (p.1 < mkRat 1 2) && p.2) : ℤ),
       (exampleData.data.countP (fun p => decide (p.1 < mkRat 1 2) && !p.2) : ℤ)⟩ :=
  ⟨by decide, claim_C1.1 exampleData (by decide) (mkRat 1 2)⟩

/-- C2 is false on the code: on the dataset `[(0.1, +), (0.9, +)]` with
thresholds `{0.5, 0.7}`, the sweep's pair at threshold 0.7 carries
tp=0, fn=2, while the independent `get_confusion_matrix(0.7)` gives
tp=1, fn=1. The incremental loop's cursor starts at row 0 instead of at
the bisection index of the first threshold, so the point 0.1 — already
counted as classified-negative by the initial matrix at 0.5 — is
re-subtracted; at the synthetic `+inf` threshold this even drives
tp to −1. -/
theorem claim_C2_code_bug :
    sweepBugData.data.Sorted pointLe ∧
    iter_confusion_matrices sweepBugData
        (ThresholdsArg.coll [mkRat 1 2, mkRat 7 10]) =
      [(((mkRat 1 2 : ℚ) : WithTop ℚ), ⟨1, 0, 1, 0⟩),
       (((mkRat 7 10 : ℚ) : WithTop ℚ), ⟨0, 0, 2, 0⟩),
       (⊤, ⟨-1, 0, 3, 0⟩)] ∧
    get_confusion_matrix sweepBugData ((mkRat 7 10 : ℚ) : WithTop ℚ) =
      ⟨1, 0, 1, 0⟩ ∧
    (⟨0, 0, 2, 0⟩ : BinaryConfusionMatrix) ≠ ⟨1, 0, 1, 0⟩ :=
  ⟨by decide, by decide, by decide, by decide⟩

/-- C3: every matrix produced by `get_confusion_matrix` and every matrix
yielded at any step of `iter_confusion_matrices` has
`tp + fp + tn + fn` equal to the dataset size. -/
theorem claim_C3 :
    (∀ (d : BinaryClassifierData) (t : WithTop ℚ),
      (get_confusion_matrix d t).tp + (get_confusion_matrix d t).fp +
        (get_confusion_matrix d t).tn + (get_confusion_matrix d t).fn =
        (d.data.length : ℤ)) ∧
    (∀ (d : BinaryClassifierData) (arg : ThresholdsArg)
      (pr : WithTop ℚ × BinaryConfusionMatrix),
      pr ∈ iter_confusion_matrices d arg →
      pr.2.tp + pr.2.fp + pr.2.tn + pr.2.fn = (d.data.length : ℤ)) := by
  constructor
  · intro d t
    have := get_confusion_matrix_sum d t
    omega
  · intro d arg pr hpr
    have := iter_mem_sum d arg pr hpr
    omega

/-- Witness for C3: the membership part applied to the first pair yielded
on the one-point dataset `[(0.5, positive)]` with default thresholds. -/
theorem claim_C3_witness :
    ((((mkRat 1 2 : ℚ) : WithTop ℚ), (⟨1, 0, 0, 0⟩ : BinaryConfusionMatrix)) ∈
      iter_confusion_matrices ⟨[(mkRat 1 2, true)]⟩ ThresholdsArg.none) ∧
    (⟨1, 0, 0, 0⟩ : BinaryConfusionMatrix).tp +
      (⟨1, 0, 0, 0⟩ : BinaryConfusionMatrix).fp +
      (⟨1, 0, 0, 0⟩ : BinaryConfusionMatrix).tn +
      (⟨1, 0, 0, 0⟩ : BinaryConfusionMatrix).fn =
      (((⟨[(mkRat 1 2, true)]⟩ : BinaryClassifierData)).data.length : ℤ) :=
  ⟨by decide, claim_C3.2 ⟨[(mkRat 1 2, true)]⟩ ThresholdsArg.none
    (((mkRat 1 2 : ℚ) : WithTop ℚ), ⟨1, 0, 0, 0⟩) (by decide)⟩

/-- C4: across any single sweep, the yielded sequence is monotone — for
any earlier/later pair of yields (the yielded thresholds strictly
increase along the sequence), the later `tp` is at most the earlier `tp`
and the later `tn` is at least the earlier `tn`. -/
theorem claim_C4 (d : BinaryClassifierData) (arg : ThresholdsArg) :
    (iter_confusion_matrices d arg).Pairwise
      (fun a b => b.2.tp ≤ a.2.tp ∧ a.2.tn ≤ b.2.tn) :=
  iter_pairwise d arg

/-- C5 is false on the code: with `thresholds=None` on a dataset whose
score 0.5 appears twice, the yielded threshold sequence is the
deduplicated `[0.5, +inf]`, not the claim's non-deduplicated
`[0.5, 0.5, +inf]` — `sorted(set(thresholds))` is applied on the `None`
path exactly as on the other paths. -/
theorem claim_C5_counterexample :
    dupScoreData.data.Sorted pointLe ∧
    (iter_confusion_matrices dupScoreData ThresholdsArg.none).map Prod.fst =
      [((mkRat 1 2 : ℚ) : WithTop ℚ), ⊤] ∧
    (iter_confusion_matrices dupScoreData ThresholdsArg.none).map Prod.fst ≠
      (dupScoreData.data.map (fun p => ((p.1 : ℚ) : WithTop ℚ))) ++ [⊤] :=
  ⟨by decide, by decide, by decide⟩

/-- C5 amended: with `thresholds=None` on a nonempty dataset, the
resolved threshold sequence is the dataset's scores with the same
deduplicate-and-sort treatment as the integer and explicit-collection
cases — the yielded thresholds are the deduplicated, ascending scores
followed by `+inf`, and the whole sweep coincides with passing the score
list as an explicit collection. -/
theorem claim_C5_amended (d : BinaryClassifierData) (hne : d.data ≠ []) :
    (iter_confusion_matrices d ThresholdsArg.none).map Prod.fst =
      (dedupSort (d.data.map Prod.fst)).map (fun t => (t : WithTop ℚ)) ++ [⊤] ∧
    iter_confusion_matrices d ThresholdsArg.none =
      iter_confusion_matrices d (ThresholdsArg.coll (d.data.map Prod.fst)) := by
  constructor
  · rcases hlist : dedupSort (d.data.map Prod.fst) with _ | ⟨t0, ts⟩
    · exfalso
      have hmap := (dedupSort_eq_nil_iff _).mp hlist
      exact hne (List.map_eq_nil_iff.mp hmap)
    · have hresolve : resolveThresholds d ThresholdsArg.none = d.data.map Prod.fst :=
        rfl
      have h := iter_map_fst d ThresholdsArg.none t0 ts (by rw [hresolve, hlist]) hne
      rw [h, hresolve, hlist]
  · rfl

/-- Witness for C5 amended: its two conclusions evaluated on the
duplicated-score dataset. -/
theorem claim_C5_amended_witness :
    dupScoreData.data ≠ [] ∧
    (iter_confusion_matrices dupScoreData ThresholdsArg.none).map Prod.fst =
      (dedupSort (dupScoreData.data.map Prod.fst)).map
        (fun t => (t : WithTop ℚ)) ++ [⊤] ∧
    iter_confusion_matrices dupScoreData ThresholdsArg.none =
      iter_confusion_matrices dupScoreData
        (ThresholdsArg.coll (dupScoreData.data.map Prod.fst)) :=
  ⟨by decide, (claim_C5_amended dupScoreData (by decide)).1,
    (claim_C5_amended dupScoreData (by decide)).2⟩

/-- C6: on every confusion matrix with `tp = 0` and `fp = 0`,
`precision()` returns exactly 1.0 (the `ZeroDivisionError` is caught),
while `fdr()` on the same matrix fails with the division-by-zero error
instead of returning a sentinel. -/
theorem claim_C6 (m : BinaryConfusionMatrix) (h1 : m.tp = 0) (h2 : m.fp = 0) :
    precision m = 1 ∧ fdr m = .error .zeroDivisionError := by
  constructor
  · simp [precision, pydiv, h1, h2]
  · simp [fdr, pydiv, h1, h2]

/-- Witness for C6: the degenerate matrix `tp=0, fp=0, fn=5, tn=7`. -/
theorem claim_C6_witness :
    (⟨0, 0, 5, 7⟩ : BinaryConfusionMatrix).tp = 0 ∧
    (⟨0, 0, 5, 7⟩ : BinaryConfusionMatrix).fp = 0 ∧
    precision ⟨0, 0, 5, 7⟩ = 1 ∧
    fdr ⟨0, 0, 5, 7⟩ = .error .zeroDivisionError :=
  ⟨rfl, rfl, (claim_C6 ⟨0, 0, 5, 7⟩ rfl rfl).1, (claim_C6 ⟨0, 0, 5, 7⟩ rfl rfl).2⟩

/-- C7 is false on the code in two ways, the deeper one exhibited here:
on the nonempty dataset `[(0.1, +), (0.9, +)]` with the explicit
threshold collection `{0.5}`, the final yielded pair is
`(+inf, tp=-1, fp=0, fn=3, tn=0)` — not the all-negative extreme
`(tp=0, fp=0, tn=total_negatives=0, fn=total_positives=2)` the claim
asserts, because the sweep cursor restarts at row 0 and re-subtracts the
point below the first threshold. (An empty collection also falsifies the
"at least one pair" part: nothing is yielded at all.) -/
theorem claim_C7_counterexample :
    sweepBugData.data.Sorted pointLe ∧
    sweepBugData.total_positives = 2 ∧
    sweepBugData.total_negatives = 0 ∧
    (iter_confusion_matrices sweepBugData
        (ThresholdsArg.coll [mkRat 1 2])).getLast? =
      some (⊤, ⟨-1, 0, 3, 0⟩) ∧
    (⟨-1, 0, 3, 0⟩ : BinaryConfusionMatrix) ≠ ⟨0, 0, 2, 0⟩ :=
  ⟨by decide, by decide, by decide, by decide, by decide⟩

/-- C7 amended: for every nonempty sorted dataset and every thresholds
argument whose resolved, deduplicated threshold list is nonempty with
minimum at most every score (`thresholds=None` always qualifies), the
sweep yields at least one pair and its final pair is `+inf` with the
all-negative matrix `tp=0, fp=0, tn=total_negatives,
fn=total_positives`. -/
theorem claim_C7_amended (d : BinaryClassifierData) (arg : ThresholdsArg)
    (hd : d.data.Sorted pointLe) (hne : d.data ≠ []) (t0 : ℚ) (ts : List ℚ)
    (hres : dedupSort (resolveThresholds d arg) = t0 :: ts)
    (hmin : ∀ p ∈ d.data, t0 ≤ p.1) :
    iter_confusion_matrices d arg ≠ [] ∧
    (iter_confusion_matrices d arg).getLast? =
      some (⊤, ⟨0, 0, d.total_positives, d.total_negatives⟩) := by
  constructor
  · rw [iter_eq_cons d arg t0 ts hres hne]
    simp
  · rw [iter_getLast d arg t0 ts hres hne, gcm_at_min d hd t0 hmin,
      foldl_updateMatrix]
    have hnotadd := countP_not_add d.data
    simp only [Option.some.injEq, Prod.mk.injEq, BinaryConfusionMatrix.mk.injEq,
      BinaryClassifierData.total_positives, BinaryClassifierData.total_negatives]
    refine ⟨trivial, by omega, by omega, by omega, by omega⟩

/-- Witness for C7 amended: the one-point dataset `[(0.5, +)]` with
default thresholds; all hypotheses discharged by evaluation. -/
theorem claim_C7_witness :
    (⟨[(mkRat 1 2, true)]⟩ : BinaryClassifierData).data.Sorted pointLe ∧
    (⟨[(mkRat 1 2, true)]⟩ : BinaryClassifierData).data ≠ [] ∧
    dedupSort (resolveThresholds ⟨[(mkRat 1 2, true)]⟩ ThresholdsArg.none) =
      [mkRat 1 2] ∧
    iter_confusion_matrices ⟨[(mkRat 1 2, true)]⟩ ThresholdsArg.none ≠ [] ∧
    (iter_confusion_matrices ⟨[(mkRat 1 2, true)]⟩ ThresholdsArg.none).getLast? =
      some (⊤, ⟨0, 0,
        (⟨[(mkRat 1 2, true)]⟩ : BinaryClassifierData).total_positives,
        (⟨[(mkRat 1 2, true)]⟩ : BinaryClassifierData).total_negatives⟩) := by
  have h := claim_C7_amended ⟨[(mkRat 1 2, true)]⟩ ThresholdsArg.none (by decide)
    (by decide) (mkRat 1 2) [] (by decide) (by decide)
  exact ⟨by decide, by decide, by decide, h.1, h.2⟩

/-- C8 is false on the code: an empty grid is not 2x2, yet construction
from it succeeds — `if data:` treats the falsy empty list as "no grid
given" and returns the all-zero matrix without ever running the
validating setter. -/
theorem claim_C8_counterexample :
    initFromGrid [] = .ok ⟨0, 0, 0, 0⟩ ∧ ([] : List (List ℤ)).length ≠ 2 :=
  ⟨rfl, by decide⟩

/-- C8 amended: construction from a grid fails exactly when the grid is
nonempty and not 2 rows of 2 columns each (an empty grid is falsy, is
treated as absent, and yields the all-zero matrix); on failure only the
error is produced, and a well-formed grid `[[tn, fn], [fp, tp]]` sets
the four counts accordingly. -/
theorem claim_C8_amended :
    (∀ grid : List (List ℤ), grid ≠ [] →
      ((∃ e, initFromGrid grid = .error e) ↔
        ¬(grid.length = 2 ∧ ∀ row ∈ grid, row.length = 2))) ∧
    initFromGrid [] = .ok ⟨0, 0, 0, 0⟩ ∧
    (∀ tn fn fp tp : ℤ,
      initFromGrid [[tn, fn], [fp, tp]] = .ok ⟨tp, fp, fn, tn⟩) := by
  refine ⟨?_, rfl, fun tn fn fp tp => rfl⟩
  intro grid hne
  rcases grid with _ | ⟨r0, _ | ⟨r1, _ | ⟨r2, rest⟩⟩⟩
  · exact absurd rfl hne
  · refine iff_of_true ⟨.valueError "confusion matrix must have 2 rows", ?_⟩ (by simp)
    rcases r0 with _ | ⟨a, _ | ⟨b, _ | ⟨c, r0r⟩⟩⟩ <;> rfl
  · rcases r0 with _ | ⟨a, _ | ⟨b, _ | ⟨c, r0r⟩⟩⟩ <;>
      rcases r1 with _ | ⟨x, _ | ⟨y, _ | ⟨z, r1r⟩⟩⟩ <;>
      simp [initFromGrid, setDataGrid]
  · refine iff_of_true ⟨.valueError "confusion matrix must have 2 rows", ?_⟩ ?_
    · show setDataGrid (r0 :: r1 :: r2 :: rest) = _
      have hlen : (r0 :: r1 :: r2 :: rest).length ≠ 2 := by simp
      rcases r0 with _ | ⟨a, _ | ⟨b, r0r⟩⟩ <;>
        rcases r1 with _ | ⟨x, _ | ⟨y, r1r⟩⟩ <;>
        simp [setDataGrid]
    · simp

/-- Witness for C8 amended: the malformed nonempty grid `[[1], [2, 3]]`
(first row too short) fails, matching the amended error condition. -/
theorem claim_C8_witness :
    (([[(1 : ℤ)], [2, 3]] : List (List ℤ)) ≠ []) ∧
    ((∃ e, initFromGrid [[(1 : ℤ)], [2, 3]] = .error e) ↔
      ¬(([[(1 : ℤ)], [2, 3]] : List (List ℤ)).length = 2 ∧
        ∀ row ∈ ([[(1 : ℤ)], [2, 3]] : List (List ℤ)), row.length = 2)) :=
  ⟨by decide, claim_C8_amended.1 [[1], [2, 3]] (by decide)⟩

/-- C9 is false on the code for the first yield: `yield threshold,
result` (line 296) hands out the running matrix object itself, with no
copy — only the in-loop yields copy (`BinaryConfusionMatrix(result)`,
line 319). On dataset `[(0.5, +)]` with default thresholds, the first
yielded pair carries tp=1, fn=0 at yield time, but once the sweep is
consumed to its end the same object reads tp=0, fn=1 (the final running
value): the first snapshot is not independent of later mutation. -/
theorem claim_C9_code_bug :
    aliasData.data.Sorted pointLe ∧
    (iterObjects aliasData ThresholdsArg.none).1 =
      [(((mkRat 1 2 : ℚ) : WithTop ℚ), YieldObj.running),
       (⊤, YieldObj.copy ⟨0, 0, 1, 0⟩)] ∧
    (iter_confusion_matrices aliasData ThresholdsArg.none).head? =
      some (((mkRat 1 2 : ℚ) : WithTop ℚ), ⟨1, 0, 0, 0⟩) ∧
    observeAfter (iterObjects aliasData ThresholdsArg.none).2 YieldObj.running =
      some ⟨0, 0, 1, 0⟩ ∧
    some (⟨0, 0, 1, 0⟩ : BinaryConfusionMatrix) ≠
      some (⟨1, 0, 0, 0⟩ : BinaryConfusionMatrix) :=
  ⟨by decide, by decide, by decide, by decide, by decide⟩

/-- C10: on every `BinaryConfusionMatrix` and every coordinate pair,
both reading `m[obs, exp]` and writing `m[obs, exp] = v` fail with an
`AttributeError` on `_data`: the attribute `__getitem__` and
`__setitem__` reference is never defined (the slots hold only the four
counts and the only class-level data attribute is `data`), so the
indexed access fails before any indexing or mutation happens. -/
theorem claim_C10 (m : BinaryConfusionMatrix) (i j v : ℤ) :
    getitemMatrix m (i, j) = .error (.attributeError "_data") ∧
    setitemMatrix m (i, j) v = .error (.attributeError "_data") :=
  ⟨rfl, rfl⟩

end Yard
